import Mathlib

namespace MullyMouth

/-!
Shallow embedding of the mully-mouth shot-event segmentation and adaptive
outcome cache pipeline (src/src/services/pattern_cache.py,
src/src/services/motion_detector.py, src/src/services/learning_service.py,
src/src/services/ai_analyzer.py, src/src/cli/monitor.py), together with
theorems settling the frozen claims about it.

Modelling conventions:
- A perceptual hash (64-bit `imagehash` fingerprint) is a `List Bool`; the
  hex-string stored form is identified with the fingerprint itself (the hex
  encoding is injective and its round-trip is the identity).
- Python floats (confidences, costs, timestamps, motion ratios) are `ℚ`.
- Wall-clock reads (`time.time()`, `datetime.now()`) become explicit `now`
  parameters.
- A Python `dict` (which preserves insertion order; updating an existing key
  keeps its position, inserting a new key appends) is a list of entries whose
  key is a field of the entry.
- Raising an exception becomes `Except`; a `try/except` around a call becomes
  a `match` on that `Except`.
-/

/-- The `Outcome` enum of src/src/models/outcome.py: a closed `str`-enum. -/
inductive Outcome where
  | fairway | green | water | bunker | rough | trees | out_of_bounds | tee_shot | unknown
deriving DecidableEq, Repr

/-- `str(outcome)` / `outcome.value` of the Python `str`-enum: its string value. -/
def Outcome.value : Outcome → String
  | .fairway => "fairway"
  | .green => "green"
  | .water => "water"
  | .bunker => "bunker"
  | .rough => "rough"
  | .trees => "trees"
  | .out_of_bounds => "out_of_bounds"
  | .tee_shot => "tee_shot"
  | .unknown => "unknown"

/-- The `Outcome(s)` constructor call: returns the member with value `s`, or
`none` where Python raises `ValueError`. -/
def Outcome.ofValue (s : String) : Option Outcome :=
  if s = "fairway" then some .fairway
  else if s = "green" then some .green
  else if s = "water" then some .water
  else if s = "bunker" then some .bunker
  else if s = "rough" then some .rough
  else if s = "trees" then some .trees
  else if s = "out_of_bounds" then some .out_of_bounds
  else if s = "tee_shot" then some .tee_shot
  else if s = "unknown" then some .unknown
  else none

/-- A perceptual fingerprint: fixed-width bit vector (64 bits for `imagehash.phash`). -/
abbrev Hash := List Bool

/-- Hamming distance `img_hash - imagehash.hex_to_hash(...)`: number of
differing bits of two equal-length bit vectors. -/
def hammingDist (a b : Hash) : Nat :=
  (List.zipWith (fun x y => x != y) a b).count true

/-- `CachedPattern` dataclass of src/src/services/pattern_cache.py. -/
structure CachedPattern where
  hash : Hash
  outcome : Outcome
  confidence : ℚ
  hit_count : Nat := 0
  last_used : Option ℚ := none
deriving DecidableEq, Repr

/-- The in-memory pattern store `self.patterns: Dict[str, CachedPattern]`,
as its entries in insertion order (the dict key is always the entry's own
`hash` field). -/
abbrev PatternStore := List CachedPattern

/-- The loop body of `find_match`'s scan: traverse `self.patterns.values()`
(carrying the position `i` of each entry so the mutated entry can be named),
tracking `best_match`/`best_distance`, updating on strict improvement
(`distance < best_distance`). -/
def bestAux (q : Hash) (i : Nat) (ps : PatternStore) (best : Option Nat) (bd : Nat) :
    Option Nat × Nat :=
  match ps with
  | [] => (best, bd)
  | p :: rest =>
    if hammingDist q p.hash < bd then
      bestAux q (i + 1) rest (some i) (hammingDist q p.hash)
    else
      bestAux q (i + 1) rest best bd

/-- The index of `best_match` after the scan of `find_match`:
`best_distance` starts at `self.hamming_threshold`, only strict improvements
are taken, `none` when no entry is strictly below the threshold. -/
def findBestIdx (threshold : Nat) (q : Hash) (ps : PatternStore) : Option Nat :=
  (bestAux q 0 ps none threshold).1

/-- `PatternCacheService.find_match` on an already-computed fingerprint `q`
(`_compute_hash` is deterministic, so equal screenshots give equal `q`):
scan for the best entry strictly below the threshold; on a hit, bump that
entry's `hit_count` and set its `last_used` to the current time, returning
its `(outcome, confidence)`. Returns the updated store and the result. -/
def findMatch (threshold : Nat) (now : ℚ) (ps : PatternStore) (q : Hash) :
    PatternStore × Option (Outcome × ℚ) :=
  match findBestIdx threshold q ps with
  | none => (ps, none)
  | some i =>
    if hi : i < ps.length then
      (ps.set i { ps.get ⟨i, hi⟩ with
                    hit_count := (ps.get ⟨i, hi⟩).hit_count + 1,
                    last_used := some now },
       some ((ps.get ⟨i, hi⟩).outcome, (ps.get ⟨i, hi⟩).confidence))
    else (ps, none)

/-- `PatternCacheService.add_pattern` on an already-computed fingerprint:
if an entry with the exact fingerprint exists, overwrite its
`outcome`/`confidence` in place (keeping `hit_count`/`last_used`); otherwise
append a new entry with `hit_count = 0` and `last_used = now`. -/
def addPattern (now : ℚ) (ps : PatternStore) (q : Hash) (o : Outcome) (conf : ℚ) :
    PatternStore :=
  if ps.any (fun p => p.hash = q) then
    ps.map (fun p => if p.hash = q then { p with outcome := o, confidence := conf } else p)
  else
    ps ++ [{ hash := q, outcome := o, confidence := conf, hit_count := 0, last_used := some now }]

/-- One record of the persisted JSON document
(`{hash, outcome: string, confidence, hit_count, last_used}`); `outcome` is
the string written by `str(pattern.outcome)`. -/
structure StoredRecord where
  hash : Hash
  outcome : String
  confidence : ℚ
  hit_count : Nat
  last_used : Option ℚ
deriving DecidableEq, Repr

/-- The content of the on-disk cache file: either unparseable (malformed
JSON, wrong shape, ...) or a parsed list of records. -/
inductive CacheFile where
  | malformed
  | wellFormed (records : List StoredRecord)

/-- `CacheError` of src/src/lib/exceptions.py. -/
structure CacheError where
  msg : String
deriving DecidableEq, Repr

/-- `PatternCacheService.persist`: serialize the full entry set, in store
(insertion) order, writing each entry's outcome as its string value. -/
def persistRecords (ps : PatternStore) : List StoredRecord :=
  ps.map fun p => ⟨p.hash, p.outcome.value, p.confidence, p.hit_count, p.last_used⟩

/-- Rebuilding one `CachedPattern` from a record inside `load`; an invalid
outcome string makes `Outcome(...)` raise, which the surrounding
`except` turns into a `CacheError`. -/
def parseRecord (r : StoredRecord) : Except CacheError CachedPattern :=
  match Outcome.ofValue r.outcome with
  | some o => .ok ⟨r.hash, o, r.confidence, r.hit_count, r.last_used⟩
  | none => .error ⟨"Failed to load pattern cache"⟩

/-- `self.patterns[pattern.hash] = pattern` on the dict model: replace in
place if the key exists, else append. -/
def dictInsert (ps : PatternStore) (p : CachedPattern) : PatternStore :=
  if ps.any (fun e => e.hash = p.hash) then
    ps.map (fun e => if e.hash = p.hash then p else e)
  else
    ps ++ [p]

/-- The loop of `load` over `cache_data["patterns"]`: each record is parsed
and inserted into the dict; the first parse failure aborts with the error. -/
def loadLoop (acc : PatternStore) : List StoredRecord → Except CacheError PatternStore
  | [] => .ok acc
  | r :: rest =>
    match parseRecord r with
    | .ok p => loadLoop (dictInsert acc p) rest
    | .error e => .error e

/-- The body of `load` on a parsed file, starting from the freshly emptied
`self.patterns = {}`. -/
def loadPatterns (recs : List StoredRecord) : Except CacheError PatternStore :=
  loadLoop [] recs

/-- `PatternCacheService.load`: a missing file returns early leaving the
prior patterns; an unparseable file raises `CacheError`; otherwise the
records are parsed into a fresh dict. -/
def load (prior : PatternStore) (file : Option CacheFile) : Except CacheError PatternStore :=
  match file with
  | none => .ok prior
  | some .malformed => .error ⟨"Failed to load pattern cache"⟩
  | some (.wellFormed recs) => loadPatterns recs

/-- `PatternCacheService.__init__`: `self.patterns = {}` followed by
`self.load()`; the result is the initial pattern store or the construction
error. -/
def initPatterns (file : Option CacheFile) : Except CacheError PatternStore :=
  load [] file

/-! ## Motion detector (src/src/services/motion_detector.py)

`analyze_frame` is embedded at the `MotionSample` level: the OpenCV frame
differencing that produces `motion_ratio`/`is_vertical` is external image
processing; what the segmenter consumes per frame is the pair
`(motion_ratio, is_primarily_vertical)` together with the wall-clock time of
the call, which we carry as the sample's timestamp. -/

/-- One processed frame's motion measurement. -/
structure MotionSample where
  ratio : ℚ
  vertical : Bool
  t : ℚ
deriving DecidableEq, Repr

/-- The segmenter state of `MotionDetectorService`: `self.motion_detected`
and `self.last_motion_time` (the only state the stop check reads). -/
structure DetectorState where
  motion_detected : Bool
  last_motion_time : Option ℚ
deriving DecidableEq, Repr

/-- Constructor / `reset()` state. -/
def initDetector : DetectorState := ⟨false, none⟩

/-- Lines 70-77 of `analyze_frame`: a sample qualifies when
`motion_ratio > self.threshold and is_vertical_motion`; a qualifying sample
sets `motion_detected = True` and refreshes `last_motion_time` to now. -/
def analyzeSample (threshold : ℚ) (s : DetectorState) (m : MotionSample) :
    DetectorState × Bool :=
  if threshold < m.ratio ∧ m.vertical = true then (⟨true, some m.t⟩, true)
  else (s, false)

/-- `is_ball_stopped`: false unless motion was detected and a last motion
time exists; otherwise true exactly when `now - last_motion_time`
has reached `ball_stop_duration`. -/
def isBallStopped (duration : ℚ) (s : DetectorState) (now : ℚ) : Bool :=
  match s.motion_detected, s.last_motion_time with
  | true, some t => decide (duration ≤ now - t)
  | _, _ => false

/-- `check_and_fire_shot_event` (frame payload and callback elided): when
the ball has stopped, report `true` and reset `motion_detected`/
`last_motion_time` for the next shot. -/
def checkAndFire (duration : ℚ) (s : DetectorState) (now : ℚ) : DetectorState × Bool :=
  if isBallStopped duration s now then (⟨false, none⟩, true) else (s, false)

/-- One iteration of the monitoring loop on one sample: `analyze_frame`
followed by the stop check, both at the sample's wall-clock time. -/
def detectorStep (threshold duration : ℚ) (s : DetectorState) (m : MotionSample) :
    DetectorState × Bool :=
  checkAndFire duration (analyzeSample threshold s m).1 m.t

/-- Run the loop over a list of samples, collecting the boundary flags. -/
def detectorRun (threshold duration : ℚ) (s : DetectorState) :
    List MotionSample → DetectorState × List Bool
  | [] => (s, [])
  | m :: ms =>
    let sb := detectorStep threshold duration s m
    let r := detectorRun threshold duration sb.1 ms
    (r.1, sb.2 :: r.2)

/-! ## Learning service (src/src/services/learning_service.py) -/

/-- One few-shot example dict
`{screenshot_hash, outcome, reasoning, confidence}`. -/
structure Exemplar where
  screenshot_hash : String
  outcome : String
  reasoning : String
  confidence : ℚ
deriving DecidableEq, Repr

/-- `self.few_shot_examples: Dict[str, List[Dict]]`, keyed by the outcome's
string value, as its entries in insertion order. -/
abbrev ExampleStore := List (String × List Exemplar)

/-- Reading a key's list (`self.few_shot_examples.get(key, [])`). -/
def storeLookup (s : ExampleStore) (k : String) : List Exemplar :=
  match s.find? (fun e => e.1 = k) with
  | some e => e.2
  | none => []

/-- `self.few_shot_examples[key] = v`: replace in place if the key exists,
else append the key. -/
def storeSet (s : ExampleStore) (k : String) (v : List Exemplar) : ExampleStore :=
  if s.any (fun e => e.1 = k) then s.map (fun e => if e.1 = k then (k, v) else e)
  else s ++ [(k, v)]

/-- Python's slice `l[-n:]` for a nonnegative `n`: the last `min n (length l)`
elements when `n ≥ 1`, but the WHOLE list when `n = 0` (since `l[-0:]` is
`l[0:]`). -/
def pyTakeLast {α : Type} (n : Nat) (l : List α) : List α :=
  if n = 0 then l else l.drop (l.length - n)

/-- `LearningService.add_few_shot_example`: append the example dict to the
outcome's list (creating it when absent); if the length now exceeds
`max_examples_per_outcome` (`cap`), keep `lst[-cap:]`. -/
def addFewShotExample (cap : Nat) (s : ExampleStore) (o : Outcome)
    (shash reasoning : String) (conf : ℚ) : ExampleStore :=
  let k := o.value
  let lst := storeLookup s k ++ [⟨shash, k, reasoning, conf⟩]
  let lst2 := if cap < lst.length then pyTakeLast cap lst else lst
  storeSet s k lst2

/-- `LearningService.get_few_shot_examples`: with an outcome, the slice
`examples[-limit:]`; without, `examples[-2:]` of every outcome's list in
store order, concatenated, truncated to the first `limit`. -/
def getFewShotExamples (s : ExampleStore) (o : Option Outcome) (limit : Nat) :
    List Exemplar :=
  match o with
  | some oc => pyTakeLast limit (storeLookup s oc.value)
  | none => (s.flatMap (fun kv => pyTakeLast 2 kv.2)).take limit

/-- One `add_few_shot_example` call's arguments, for folding call sequences. -/
structure AddCall where
  outcome : Outcome
  shash : String
  reasoning : String
  confidence : ℚ

/-- A sequence of `add_few_shot_example` calls against a fresh service. -/
def runAddCalls (cap : Nat) (calls : List AddCall) : ExampleStore :=
  calls.foldl
    (fun s c => addFewShotExample cap s c.outcome c.shash c.reasoning c.confidence) []

/-! ## Shot pipeline orchestrator (src/src/cli/monitor.py `_process_shot`)

The classification core of `_process_shot`: player-name extraction and
commentary/voice rendering are external collaborators with no effect on the
cache or on whether a shot event is recorded; the whole body runs inside
`try/except Exception`, which prints and returns on any raised error. -/

/-- Result of the external classifier call `analyze_shot` (which raises
`AIServiceError` on API failure or unparseable response). -/
inductive ClassResult where
  | ok (outcome : Outcome) (confidence : ℚ) (cost : ℚ)
  | err (msg : String)

/-- The downstream shot notification: the `ShotEvent` appended to the
session (outcome, confidence, was_cached, api_cost). -/
structure ShotNotification where
  outcome : Outcome
  confidence : ℚ
  was_cached : Bool
  api_cost : ℚ
deriving DecidableEq, Repr

/-- `Monitor._process_shot` on a fired shot boundary: achievement overlays
skip shot analysis entirely; otherwise try the pattern cache; on a miss call
the classifier, cache the result when `confidence ≥ min_confidence_to_cache`,
and record the shot event. A raised classifier error is caught by the
enclosing `except`, which logs it and returns without recording anything. -/
def processShot (threshold : Nat) (minConfToCache : ℚ) (now : ℚ) (ps : PatternStore)
    (q : Hash) (achievement : Option String) (cls : ClassResult) :
    PatternStore × Option ShotNotification :=
  match achievement with
  | some _ => (ps, none)
  | none =>
    let fm := findMatch threshold now ps q
    match fm.2 with
    | some (o, c) => (fm.1, some ⟨o, c, true, 0⟩)
    | none =>
      match cls with
      | .ok o c cost =>
        let ps1 := if minConfToCache ≤ c then addPattern now fm.1 q o c else fm.1
        (ps1, some ⟨o, c, false, cost⟩)
      | .err _ => (fm.1, none)

/-- 64-bit all-zero fingerprint (concrete test vector). -/
def hashA : Hash := List.replicate 64 false

/-- Fingerprint at Hamming distance 8 from `hashA`. -/
def hashB : Hash := List.replicate 8 true ++ List.replicate 56 false

/-- Fingerprint at Hamming distance 12 from `hashA`. -/
def hashC : Hash := List.replicate 12 true ++ List.replicate 52 false

/-- Concrete one-entry cache `{hash=hashA, outcome=water, confidence=0.9}`. -/
def cacheW : PatternStore := [⟨hashA, Outcome.water, 9/10, 0, none⟩]

theorem Outcome.ofValue_value (o : Outcome) : Outcome.ofValue o.value = some o := by
  cases o <;> rfl

theorem hammingDist_self (a : Hash) : hammingDist a a = 0 := by
  induction a with
  | nil => rfl
  | cons x xs ih =>
    simp only [hammingDist, List.zipWith_cons_cons, bne_self_eq_false] at *
    simpa [List.count_cons] using ih

theorem hammingDist_cons (x y : Bool) (xs ys : List Bool) :
    hammingDist (x :: xs) (y :: ys) = hammingDist xs ys + (if x = y then 0 else 1) := by
  by_cases hxy : x = y <;>
    simp [hammingDist, List.count_cons, hxy]

theorem hammingDist_eq_zero_iff (a b : Hash) (hlen : a.length = b.length) :
    hammingDist a b = 0 ↔ a = b := by
  induction a generalizing b with
  | nil =>
    cases b with
    | nil => simp [hammingDist]
    | cons y ys => simp at hlen
  | cons x xs ih =>
    cases b with
    | nil => simp at hlen
    | cons y ys =>
      simp only [List.length_cons, Nat.succ_inj] at hlen
      rw [hammingDist_cons]
      constructor
      · intro h
        rcases Nat.add_eq_zero.mp h with ⟨h1, h2⟩
        have hxy : x = y := by
          by_contra hne
          simp [hne] at h2
        have := (ih ys hlen).mp h1
        simp [hxy, this]
      · intro h
        injection h with h1 h2
        subst h1; subst h2
        simp [hammingDist_self xs]

theorem bestAux_snd_le (q : Hash) (i : Nat) (ps : PatternStore) (best : Option Nat) (bd : Nat) :
    (bestAux q i ps best bd).2 ≤ bd := by
  induction ps generalizing i best bd with
  | nil => simp [bestAux]
  | cons p rest ih =>
    simp only [bestAux]
    split
    · exact le_trans (ih (i + 1) (some i) _) (le_of_lt (by assumption))
    · exact ih (i + 1) best bd

theorem bestAux_min (q : Hash) (i : Nat) (ps : PatternStore) (best : Option Nat) (bd : Nat) :
    ∀ p ∈ ps, (bestAux q i ps best bd).2 ≤ hammingDist q p.hash := by
  induction ps generalizing i best bd with
  | nil => simp
  | cons p rest ih =>
    intro p' hp'
    rcases List.mem_cons.mp hp' with h | h
    · subst h
      simp only [bestAux]
      split
      · exact bestAux_snd_le q (i + 1) rest (some i) _
      · exact le_trans (bestAux_snd_le q (i + 1) rest best bd) (Nat.le_of_not_lt (by assumption))
    · simp only [bestAux]
      split
      · exact ih (i + 1) (some i) _ p' h
      · exact ih (i + 1) best bd p' h

theorem bestAux_spec (q : Hash) (i : Nat) (ps : PatternStore) (best : Option Nat) (bd : Nat) :
    ((bestAux q i ps best bd).1 = best ∧ (bestAux q i ps best bd).2 = bd) ∨
    ∃ k, ∃ hk : k < ps.length,
      (bestAux q i ps best bd).1 = some (i + k) ∧
      (bestAux q i ps best bd).2 = hammingDist q (ps.get ⟨k, hk⟩).hash ∧
      (bestAux q i ps best bd).2 < bd := by
  induction ps generalizing i best bd with
  | nil => left; simp [bestAux]
  | cons p rest ih =>
    by_cases hd : hammingDist q p.hash < bd
    · rw [show bestAux q i (p :: rest) best bd =
        bestAux q (i + 1) rest (some i) (hammingDist q p.hash) from by
          simp [bestAux, hd]]
      rcases ih (i + 1) (some i) (hammingDist q p.hash) with ⟨h1, h2⟩ | ⟨k, hk, h1, h2, h3⟩
      · right
        exact ⟨0, by simp, by simpa using h1, by simpa using h2, by rw [h2]; exact hd⟩
      · right
        refine ⟨k + 1, by simpa using Nat.succ_lt_succ hk, ?_, ?_, ?_⟩
        · rw [h1]; congr 1; omega
        · simpa using h2
        · exact lt_trans h3 hd
    · rw [show bestAux q i (p :: rest) best bd = bestAux q (i + 1) rest best bd from by
        simp [bestAux, hd]]
      rcases ih (i + 1) best bd with h | ⟨k, hk, h1, h2, h3⟩
      · left; exact h
      · right
        refine ⟨k + 1, by simpa using Nat.succ_lt_succ hk, ?_, ?_, h3⟩
        · rw [h1]; congr 1; omega
        · simpa using h2

theorem bestAux_unchanged (q : Hash) (i : Nat) (ps : PatternStore) (best : Option Nat) (bd : Nat)
    (h : ∀ p ∈ ps, bd ≤ hammingDist q p.hash) :
    bestAux q i ps best bd = (best, bd) := by
  induction ps generalizing i with
  | nil => rfl
  | cons p rest ih =>
    have hp : bd ≤ hammingDist q p.hash := h p (List.mem_cons_self p rest)
    simp only [bestAux, if_neg (Nat.not_lt.mpr hp)]
    exact ih (i + 1) (fun p' hp' => h p' (List.mem_cons_of_mem p hp'))

theorem findBestIdx_some (threshold : Nat) (q : Hash) (ps : PatternStore) (i : Nat)
    (h : findBestIdx threshold q ps = some i) :
    ∃ hi : i < ps.length,
      hammingDist q (ps.get ⟨i, hi⟩).hash < threshold ∧
      ∀ p ∈ ps, hammingDist q (ps.get ⟨i, hi⟩).hash ≤ hammingDist q p.hash := by
  unfold findBestIdx at h
  rcases bestAux_spec q 0 ps none threshold with ⟨h1, _⟩ | ⟨k, hk, h1, h2, h3⟩
  · rw [h1] at h; exact absurd h (by simp)
  · rw [h1] at h
    have hik : i = k := by simpa using h.symm
    subst hik
    refine ⟨hk, ?_, ?_⟩
    · rw [← h2]; exact h3
    · intro p hp
      rw [← h2]
      exact bestAux_min q 0 ps none threshold p hp

theorem findBestIdx_none_iff (threshold : Nat) (q : Hash) (ps : PatternStore) :
    findBestIdx threshold q ps = none ↔ ∀ p ∈ ps, threshold ≤ hammingDist q p.hash := by
  constructor
  · intro h
    unfold findBestIdx at h
    rcases bestAux_spec q 0 ps none threshold with ⟨_, h2⟩ | ⟨k, hk, h1, _, _⟩
    · intro p hp
      rw [← h2]
      exact bestAux_min q 0 ps none threshold p hp
    · rw [h1] at h; exact absurd h (by simp)
  · intro h
    unfold findBestIdx
    rw [bestAux_unchanged q 0 ps none threshold h]

theorem findMatch_of_none (threshold : Nat) (now : ℚ) (ps : PatternStore) (q : Hash)
    (h : ∀ p ∈ ps, threshold ≤ hammingDist q p.hash) :
    findMatch threshold now ps q = (ps, none) := by
  unfold findMatch
  rw [(findBestIdx_none_iff threshold q ps).mpr h]

theorem findMatch_hit (threshold : Nat) (now : ℚ) (ps : PatternStore) (q : Hash)
    (o : Outcome) (c : ℚ) (h : (findMatch threshold now ps q).2 = some (o, c)) :
    ∃ i, ∃ hi : i < ps.length,
      findBestIdx threshold q ps = some i ∧
      (ps.get ⟨i, hi⟩).outcome = o ∧ (ps.get ⟨i, hi⟩).confidence = c ∧
      (findMatch threshold now ps q).1 =
        ps.set i { ps.get ⟨i, hi⟩ with
                    hit_count := (ps.get ⟨i, hi⟩).hit_count + 1,
                    last_used := some now } := by
  cases hb : findBestIdx threshold q ps with
  | none =>
    have hn : findMatch threshold now ps q = (ps, none) := by
      unfold findMatch; rw [hb]
    rw [hn] at h
    simp at h
  | some i =>
    obtain ⟨hi, -, -⟩ := findBestIdx_some threshold q ps i hb
    have heq : findMatch threshold now ps q =
        (ps.set i { ps.get ⟨i, hi⟩ with
                      hit_count := (ps.get ⟨i, hi⟩).hit_count + 1,
                      last_used := some now },
         some ((ps.get ⟨i, hi⟩).outcome, (ps.get ⟨i, hi⟩).confidence)) := by
      unfold findMatch
      rw [hb]
      exact dif_pos hi
    rw [heq] at h
    simp only [Option.some.injEq, Prod.mk.injEq] at h
    exact ⟨i, hi, rfl, h.1, h.2, by rw [heq]⟩

theorem list_map_eq_self {α : Type} (l : List α) (f : α → α) (h : ∀ x ∈ l, f x = x) :
    l.map f = l := by
  induction l with
  | nil => rfl
  | cons x xs ih =>
    simp only [List.map_cons, h x (List.mem_cons_self x xs), List.cons.injEq, true_and]
    exact ih (fun y hy => h y (List.mem_cons_of_mem x hy))

/-- After `add_pattern`, an entry with the exact fingerprint is present. -/
theorem addPattern_mem (now : ℚ) (ps : PatternStore) (q : Hash) (o : Outcome) (conf : ℚ) :
    (addPattern now ps q o conf).any (fun p => p.hash = q) = true := by
  unfold addPattern
  split
  · rename_i hany
    simp only [List.any_eq_true, decide_eq_true_eq] at hany ⊢
    obtain ⟨p, hp, hph⟩ := hany
    refine ⟨if p.hash = q then { p with outcome := o, confidence := conf } else p,
      List.mem_map_of_mem _ hp, ?_⟩
    simp [hph]
  · simp

/-- Entries of the store after `add_pattern` that carry the added fingerprint
carry the added outcome and confidence. -/
theorem addPattern_at_key (now : ℚ) (ps : PatternStore) (q : Hash) (o : Outcome) (conf : ℚ) :
    ∀ p ∈ addPattern now ps q o conf, p.hash = q →
      p.outcome = o ∧ p.confidence = conf := by
  unfold addPattern
  split
  · intro p hp hph
    simp only [List.mem_map] at hp
    obtain ⟨e, he, hfe⟩ := hp
    by_cases hq : e.hash = q
    · rw [if_pos hq] at hfe
      rw [← hfe]
      exact ⟨rfl, rfl⟩
    · rw [if_neg hq] at hfe
      exact absurd (hfe ▸ hph) hq
  · rename_i hany
    intro p hp hph
    rcases List.mem_append.mp hp with h | h
    · exfalso
      simp only [List.any_eq_true, decide_eq_true_eq] at hany
      exact hany ⟨p, h, hph⟩
    · simp only [List.mem_singleton] at h
      rw [h]
      exact ⟨rfl, rfl⟩

/-- `add_pattern` never changes an entry's fingerprint (it only overwrites
`outcome`/`confidence` or appends the new fingerprint). -/
theorem addPattern_hashes (now : ℚ) (ps : PatternStore) (q : Hash) (o : Outcome) (conf : ℚ) :
    (addPattern now ps q o conf).map CachedPattern.hash =
      if ps.any (fun p => p.hash = q) then ps.map CachedPattern.hash
      else ps.map CachedPattern.hash ++ [q] := by
  unfold addPattern
  split
  · rw [List.map_map]
    refine List.map_congr_left ?_
    intro p _
    by_cases hq : p.hash = q <;> simp [hq]
  · simp

/-- `add_pattern` on a store that already holds the exact fingerprint with the
same outcome and confidence is the identity on the store. -/
theorem addPattern_of_present (now' : ℚ) (t : PatternStore) (q : Hash) (o : Outcome) (conf : ℚ)
    (hmem : t.any (fun p => p.hash = q) = true)
    (hkey : ∀ p ∈ t, p.hash = q → p.outcome = o ∧ p.confidence = conf) :
    addPattern now' t q o conf = t := by
  unfold addPattern
  rw [if_pos hmem]
  apply list_map_eq_self
  intro p hp
  by_cases hq : p.hash = q
  · obtain ⟨ho, hc⟩ := hkey p hp hq
    rw [if_pos hq, ← ho, ← hc]
  · rw [if_neg hq]

/-- Calling `add_pattern` a second time with the same fingerprint, outcome and
confidence is the identity on the store. -/
theorem addPattern_idem (now now' : ℚ) (ps : PatternStore) (q : Hash) (o : Outcome) (conf : ℚ) :
    addPattern now' (addPattern now ps q o conf) q o conf =
      addPattern now ps q o conf :=
  addPattern_of_present now' (addPattern now ps q o conf) q o conf
    (addPattern_mem now ps q o conf) (addPattern_at_key now ps q o conf)

theorem parseRecord_persist (p : CachedPattern) :
    parseRecord ⟨p.hash, p.outcome.value, p.confidence, p.hit_count, p.last_used⟩ =
      .ok p := by
  unfold parseRecord
  rw [Outcome.ofValue_value]

theorem loadLoop_persist (ps : PatternStore) : ∀ acc : PatternStore,
    ((acc ++ ps).map CachedPattern.hash).Nodup →
    loadLoop acc (persistRecords ps) = .ok (acc ++ ps) := by
  induction ps with
  | nil => intro acc _; simp [persistRecords, loadLoop]
  | cons p rest ih =>
    intro acc h
    have hmap : (acc ++ p :: rest).map CachedPattern.hash =
        acc.map CachedPattern.hash ++ p.hash :: rest.map CachedPattern.hash := by
      simp
    rw [hmap] at h
    rcases List.nodup_append.mp h with ⟨-, -, hdisj⟩
    have hnotin : (acc.any (fun e => e.hash = p.hash)) = false := by
      rw [List.any_eq_false]
      intro e he
      simp only [decide_eq_true_eq]
      intro hh
      exact hdisj (hh ▸ List.mem_map_of_mem CachedPattern.hash he) (List.mem_cons_self _ _)
    have hins : dictInsert acc p = acc ++ [p] := by
      unfold dictInsert
      rw [if_neg (by simp [hnotin])]
    have hall : (((acc ++ [p]) ++ rest).map CachedPattern.hash).Nodup := by
      rw [List.append_assoc, List.singleton_append, hmap]
      exact h
    have hstep : loadLoop acc (persistRecords (p :: rest)) =
        loadLoop (dictInsert acc p) (persistRecords rest) := by
      show (match parseRecord ⟨p.hash, p.outcome.value, p.confidence, p.hit_count,
              p.last_used⟩ with
            | .ok p => loadLoop (dictInsert acc p) (persistRecords rest)
            | .error e => .error e) =
          loadLoop (dictInsert acc p) (persistRecords rest)
      rw [parseRecord_persist p]
    rw [hstep, hins, ih (acc ++ [p]) hall, List.append_assoc, List.singleton_append]

/-- C6: for every cache state (with the dict invariant that stored hashes
are distinct keys), `persist()` followed by a fresh `load()` of the written
file reproduces an equal entry set: the same fingerprints mapped to the same
outcomes and confidences, with `hit_count` and `last_used` preserved (the
resulting store is equal entry-for-entry). -/
theorem persist_load_round_trip (ps : PatternStore)
    (h : (ps.map CachedPattern.hash).Nodup) :
    load [] (some (.wellFormed (persistRecords ps))) = .ok ps := by
  show loadPatterns (persistRecords ps) = .ok ps
  unfold loadPatterns
  simpa using loadLoop_persist ps [] (by simpa using h)

theorem countP_hash_update (ps : PatternStore) (q : Hash) (o : Outcome) (conf : ℚ) :
    (ps.map (fun p => if p.hash = q then { p with outcome := o, confidence := conf }
        else p)).countP (fun p => decide (p.hash = q)) =
      ps.countP (fun p => decide (p.hash = q)) := by
  induction ps with
  | nil => rfl
  | cons p rest ih =>
    by_cases hq : p.hash = q <;> simp [List.countP_cons, hq, ih]

theorem countP_hash_eq_one (ps : PatternStore) (q : Hash)
    (hnd : (ps.map CachedPattern.hash).Nodup)
    (hmem : ps.any (fun p => p.hash = q) = true) :
    ps.countP (fun p => decide (p.hash = q)) = 1 := by
  induction ps with
  | nil => simp at hmem
  | cons p rest ih =>
    simp only [List.map_cons, List.nodup_cons] at hnd
    obtain ⟨hnotin, hnd'⟩ := hnd
    by_cases hq : p.hash = q
    · have hzero : rest.countP (fun p => decide (p.hash = q)) = 0 := by
        rw [List.countP_eq_zero]
        intro e he
        simp only [decide_eq_true_eq]
        intro hh
        exact hnotin (by rw [hq, ← hh]; exact List.mem_map_of_mem _ he)
      simp [List.countP_cons, hq, hzero]
    · have hmem' : rest.any (fun p => p.hash = q) = true := by
        simpa [hq] using hmem
      simp [List.countP_cons, hq, ih hnd' hmem']

theorem addPattern_countP (now : ℚ) (ps : PatternStore) (q : Hash) (o : Outcome) (conf : ℚ)
    (hnd : (ps.map CachedPattern.hash).Nodup) :
    (addPattern now ps q o conf).countP (fun p => decide (p.hash = q)) = 1 := by
  unfold addPattern
  split
  · rename_i hany
    rw [countP_hash_update]
    exact countP_hash_eq_one ps q hnd hany
  · rename_i hany
    have hzero : ps.countP (fun p => decide (p.hash = q)) = 0 := by
      rw [List.countP_eq_zero]
      intro e he
      simp only [decide_eq_true_eq]
      intro hh
      exact hany (by simp only [List.any_eq_true, decide_eq_true_eq]; exact ⟨e, he, hh⟩)
    simp [List.countP_append, hzero, List.countP_cons]

theorem detectorStep_qualifying (threshold duration : ℚ) (s : DetectorState)
    (m : MotionSample) (hD : 0 < duration) (hq : threshold < m.ratio ∧ m.vertical = true) :
    detectorStep threshold duration s m = (⟨true, some m.t⟩, false) := by
  unfold detectorStep analyzeSample
  rw [if_pos hq]
  unfold checkAndFire isBallStopped
  simp only
  rw [if_neg]
  simp only [decide_eq_true_eq, sub_self]
  exact not_le.mpr hD

theorem detectorRun_qualifying (threshold duration : ℚ) (qs : List MotionSample)
    (hD : 0 < duration) (hne : qs ≠ [])
    (hq : ∀ q ∈ qs, threshold < q.ratio ∧ q.vertical = true) :
    ∀ s : DetectorState,
      detectorRun threshold duration s qs =
        (⟨true, some (qs.getLast hne).t⟩, List.replicate qs.length false) := by
  induction qs with
  | nil => exact absurd rfl hne
  | cons m rest ih =>
    intro s
    have hm := hq m (List.mem_cons_self m rest)
    by_cases hrest : rest = []
    · subst hrest
      simp [detectorRun, detectorStep_qualifying threshold duration s m hD hm,
        List.getLast]
    · have hih := ih hrest (fun q hq' => hq q (List.mem_cons_of_mem m hq'))
        ⟨true, some m.t⟩
      simp only [detectorRun, detectorStep_qualifying threshold duration s m hD hm]
      rw [hih]
      simp only [Prod.mk.injEq]
      refine ⟨?_, ?_⟩
      · rw [List.getLast_cons hrest]
      · simp [List.replicate_succ]

theorem detectorStep_quiet_waiting (threshold duration t0 : ℚ) (u : MotionSample)
    (hquiet : ¬(threshold < u.ratio ∧ u.vertical = true)) (hgap : u.t - t0 < duration) :
    detectorStep threshold duration ⟨true, some t0⟩ u = (⟨true, some t0⟩, false) := by
  unfold detectorStep analyzeSample
  rw [if_neg hquiet]
  unfold checkAndFire isBallStopped
  simp only
  rw [if_neg]
  simp only [decide_eq_true_eq]
  exact not_le.mpr hgap

theorem detectorRun_quiet_waiting (threshold duration t0 : ℚ) (pre : List MotionSample)
    (hquiet : ∀ u ∈ pre, ¬(threshold < u.ratio ∧ u.vertical = true))
    (hgap : ∀ u ∈ pre, u.t - t0 < duration) :
    detectorRun threshold duration ⟨true, some t0⟩ pre =
      (⟨true, some t0⟩, List.replicate pre.length false) := by
  induction pre with
  | nil => rfl
  | cons u rest ih =>
    simp only [detectorRun,
      detectorStep_quiet_waiting threshold duration t0 u
        (hquiet u (List.mem_cons_self u rest)) (hgap u (List.mem_cons_self u rest)),
      ih (fun v hv => hquiet v (List.mem_cons_of_mem u hv))
        (fun v hv => hgap v (List.mem_cons_of_mem u hv))]
    simp [List.replicate_succ]

theorem detectorStep_fire (threshold duration t0 : ℚ) (w : MotionSample)
    (hquiet : ¬(threshold < w.ratio ∧ w.vertical = true)) (hw : duration ≤ w.t - t0) :
    detectorStep threshold duration ⟨true, some t0⟩ w = (⟨false, none⟩, true) := by
  unfold detectorStep analyzeSample
  rw [if_neg hquiet]
  unfold checkAndFire isBallStopped
  simp only
  rw [if_pos]
  simp only [decide_eq_true_eq]
  exact hw

theorem detectorStep_idle (threshold duration : ℚ) (u : MotionSample)
    (hquiet : ¬(threshold < u.ratio ∧ u.vertical = true)) :
    detectorStep threshold duration ⟨false, none⟩ u = (⟨false, none⟩, false) := by
  unfold detectorStep analyzeSample
  rw [if_neg hquiet]
  rfl

theorem detectorRun_idle (threshold duration : ℚ) (post : List MotionSample)
    (hquiet : ∀ u ∈ post, ¬(threshold < u.ratio ∧ u.vertical = true)) :
    detectorRun threshold duration ⟨false, none⟩ post =
      (⟨false, none⟩, List.replicate post.length false) := by
  induction post with
  | nil => rfl
  | cons u rest ih =>
    simp only [detectorRun,
      detectorStep_idle threshold duration u (hquiet u (List.mem_cons_self u rest)),
      ih (fun v hv => hquiet v (List.mem_cons_of_mem u hv))]
    simp [List.replicate_succ]

theorem detectorRun_append (threshold duration : ℚ) (xs ys : List MotionSample) :
    ∀ s : DetectorState,
      detectorRun threshold duration s (xs ++ ys) =
        ((detectorRun threshold duration (detectorRun threshold duration s xs).1 ys).1,
         (detectorRun threshold duration s xs).2 ++
           (detectorRun threshold duration (detectorRun threshold duration s xs).1 ys).2) := by
  induction xs with
  | nil => intro s; simp [detectorRun]
  | cons m xs ih => intro s; simp [detectorRun, ih]

theorem storeLookup_map_update (s : ExampleStore) (k : String) (v : List Exemplar) :
    storeLookup (s.map (fun e => if e.1 = k then (k, v) else e)) k =
      if s.any (fun e => e.1 = k) then v else [] := by
  induction s with
  | nil => simp [storeLookup]
  | cons e rest ih =>
    by_cases he : e.1 = k
    · simp only [List.map_cons, if_pos he]
      unfold storeLookup
      rw [List.find?_cons_of_pos _ (by simp)]
      simp [List.any_cons, he]
    · simp only [List.map_cons, if_neg he]
      unfold storeLookup at ih ⊢
      rw [List.find?_cons_of_neg _ (by simp [he])]
      rw [ih]
      have hdec : (decide (e.1 = k)) = false := by simp [he]
      rw [List.any_cons, hdec, Bool.false_or]

theorem storeLookup_append_single (s : ExampleStore) (k : String) (v : List Exemplar)
    (hany : (s.any (fun e => e.1 = k)) = false) :
    storeLookup (s ++ [(k, v)]) k = v := by
  induction s with
  | nil =>
    unfold storeLookup
    rw [List.nil_append, List.find?_cons_of_pos _ (by simp)]
  | cons e rest ih =>
    simp only [List.any_cons, Bool.or_eq_false_iff] at hany
    obtain ⟨h1, h2⟩ := hany
    unfold storeLookup
    rw [List.cons_append, List.find?_cons_of_neg _ (by simp [h1])]
    exact ih h2

theorem storeLookup_set_self (s : ExampleStore) (k : String) (v : List Exemplar) :
    storeLookup (storeSet s k v) k = v := by
  unfold storeSet
  split
  · rename_i hany
    rw [storeLookup_map_update, if_pos hany]
  · rename_i hany
    exact storeLookup_append_single s k v (Bool.eq_false_iff.mpr hany)

theorem storeLookup_map_update_ne (s : ExampleStore) (k k' : String) (v : List Exemplar)
    (hk : ¬(k' = k)) :
    storeLookup (s.map (fun e => if e.1 = k then (k, v) else e)) k' = storeLookup s k' := by
  induction s with
  | nil => rfl
  | cons e rest ih =>
    by_cases he : e.1 = k
    · simp only [List.map_cons, if_pos he]
      unfold storeLookup at ih ⊢
      rw [List.find?_cons_of_neg _ (by simp only [decide_eq_true_eq]; exact fun h => hk h.symm),
        List.find?_cons_of_neg _ (by
          simp only [decide_eq_true_eq]
          intro h
          rw [he] at h
          exact hk h.symm)]
      exact ih
    · simp only [List.map_cons, if_neg he]
      unfold storeLookup at ih ⊢
      by_cases he' : e.1 = k'
      · rw [List.find?_cons_of_pos _ (by simp [he']), List.find?_cons_of_pos _ (by simp [he'])]
      · rw [List.find?_cons_of_neg _ (by simp [he']), List.find?_cons_of_neg _ (by simp [he'])]
        exact ih

theorem storeLookup_append_single_ne (s : ExampleStore) (k k' : String) (v : List Exemplar)
    (hk : ¬(k' = k)) :
    storeLookup (s ++ [(k, v)]) k' = storeLookup s k' := by
  induction s with
  | nil =>
    unfold storeLookup
    rw [List.nil_append,
      List.find?_cons_of_neg _ (by simp only [decide_eq_true_eq]; exact fun h => hk h.symm)]
  | cons e rest ih =>
    by_cases he : e.1 = k'
    · unfold storeLookup
      rw [List.cons_append, List.find?_cons_of_pos _ (by simp [he]),
        List.find?_cons_of_pos _ (by simp [he])]
    · unfold storeLookup at ih ⊢
      rw [List.cons_append, List.find?_cons_of_neg _ (by simp [he]),
        List.find?_cons_of_neg _ (by simp [he])]
      exact ih

theorem storeLookup_set_ne (s : ExampleStore) (k k' : String) (v : List Exemplar)
    (hk : ¬(k' = k)) :
    storeLookup (storeSet s k v) k' = storeLookup s k' := by
  unfold storeSet
  split
  · exact storeLookup_map_update_ne s k k' v hk
  · exact storeLookup_append_single_ne s k k' v hk

theorem addFewShot_lookup_self (cap : Nat) (s : ExampleStore) (o : Outcome)
    (shash reasoning : String) (conf : ℚ) :
    storeLookup (addFewShotExample cap s o shash reasoning conf) o.value =
      (if cap <
          (storeLookup s o.value ++ [(⟨shash, o.value, reasoning, conf⟩ : Exemplar)]).length
       then pyTakeLast cap
         (storeLookup s o.value ++ [(⟨shash, o.value, reasoning, conf⟩ : Exemplar)])
       else storeLookup s o.value ++ [(⟨shash, o.value, reasoning, conf⟩ : Exemplar)]) := by
  unfold addFewShotExample
  exact storeLookup_set_self s o.value _

theorem addFewShot_lookup_ne (cap : Nat) (s : ExampleStore) (o : Outcome)
    (shash reasoning : String) (conf : ℚ) (k : String) (hk : ¬(k = o.value)) :
    storeLookup (addFewShotExample cap s o shash reasoning conf) k = storeLookup s k := by
  unfold addFewShotExample
  exact storeLookup_set_ne s o.value k _ hk

theorem addFewShot_len_le (cap : Nat) (hcap : 1 ≤ cap) (s : ExampleStore) (o : Outcome)
    (shash reasoning : String) (conf : ℚ) :
    (storeLookup (addFewShotExample cap s o shash reasoning conf) o.value).length ≤ cap := by
  rw [addFewShot_lookup_self]
  split
  · rename_i hlt
    unfold pyTakeLast
    rw [if_neg (by omega)]
    rw [List.length_drop]
    omega
  · rename_i hlt
    omega

theorem runAddCalls_bounded_aux (cap : Nat) (hcap : 1 ≤ cap) (calls : List AddCall) :
    ∀ s : ExampleStore, (∀ k, (storeLookup s k).length ≤ cap) →
      ∀ k, (storeLookup (calls.foldl (fun s c =>
        addFewShotExample cap s c.outcome c.shash c.reasoning c.confidence) s) k).length ≤ cap := by
  induction calls with
  | nil => intro s hs k; exact hs k
  | cons c rest ih =>
    intro s hs k
    rw [List.foldl_cons]
    refine ih _ (fun k' => ?_) k
    by_cases hk : k' = c.outcome.value
    · subst hk
      exact addFewShot_len_le cap hcap s c.outcome c.shash c.reasoning c.confidence
    · rw [addFewShot_lookup_ne cap s c.outcome c.shash c.reasoning c.confidence k' hk]
      exact hs k'

theorem addFewShot_fifo (cap : Nat) (hcap : 1 ≤ cap) (s : ExampleStore) (o : Outcome)
    (shash reasoning : String) (conf : ℚ)
    (hlen : (storeLookup s o.value).length ≤ cap) :
    storeLookup (addFewShotExample cap s o shash reasoning conf) o.value =
      if (storeLookup s o.value).length < cap
      then storeLookup s o.value ++ [⟨shash, o.value, reasoning, conf⟩]
      else (storeLookup s o.value).drop 1 ++ [⟨shash, o.value, reasoning, conf⟩] := by
  rw [addFewShot_lookup_self]
  have hlapp : (storeLookup s o.value ++
      [(⟨shash, o.value, reasoning, conf⟩ : Exemplar)]).length =
      (storeLookup s o.value).length + 1 := by
    simp
  by_cases hlt : (storeLookup s o.value).length < cap
  · rw [if_pos hlt, if_neg (by rw [hlapp]; omega)]
  · have hol : (storeLookup s o.value).length = cap := le_antisymm hlen (not_lt.mp hlt)
    rw [if_neg hlt, if_pos (by rw [hlapp]; omega)]
    unfold pyTakeLast
    rw [if_neg (by omega)]
    rw [List.drop_append_eq_append_drop]
    have h1 : (storeLookup s o.value ++
        [(⟨shash, o.value, reasoning, conf⟩ : Exemplar)]).length - cap = 1 := by
      rw [hlapp]
      omega
    rw [h1, hol]
    have h2 : 1 - cap = 0 := by omega
    rw [h2, List.drop_zero]

theorem findMatch_eq_of_idx (threshold : Nat) (now : ℚ) (ps : PatternStore) (q : Hash)
    (i : Nat) (hb : findBestIdx threshold q ps = some i) (hi : i < ps.length) :
    findMatch threshold now ps q =
      (ps.set i { ps.get ⟨i, hi⟩ with
                    hit_count := (ps.get ⟨i, hi⟩).hit_count + 1,
                    last_used := some now },
       some ((ps.get ⟨i, hi⟩).outcome, (ps.get ⟨i, hi⟩).confidence)) := by
  unfold findMatch
  rw [hb]
  exact dif_pos hi

theorem findMatch_none_iff (threshold : Nat) (now : ℚ) (ps : PatternStore) (q : Hash) :
    (findMatch threshold now ps q).2 = none ↔
      ∀ p ∈ ps, threshold ≤ hammingDist q p.hash := by
  constructor
  · intro h
    by_contra hc
    push_neg at hc
    obtain ⟨p, hp, hd⟩ := hc
    cases hb : findBestIdx threshold q ps with
    | none => exact absurd ((findBestIdx_none_iff threshold q ps).mp hb p hp) (not_le.mpr hd)
    | some i =>
      obtain ⟨hi, -, -⟩ := findBestIdx_some threshold q ps i hb
      rw [findMatch_eq_of_idx threshold now ps q i hb hi] at h
      simp at h
  · intro h
    rw [findMatch_of_none threshold now ps q h]

theorem map_update_eq_set (ps : PatternStore) (q : Hash) (o2 : Outcome) (c2 : ℚ)
    (hnd : (ps.map CachedPattern.hash).Nodup) (i : Nat) (hi : i < ps.length)
    (hq : (ps.get ⟨i, hi⟩).hash = q) :
    ps.map (fun p => if p.hash = q then { p with outcome := o2, confidence := c2 } else p) =
      ps.set i { ps.get ⟨i, hi⟩ with outcome := o2, confidence := c2 } := by
  have hinj : ∀ (j : Nat) (hj : j < ps.length), (ps.get ⟨j, hj⟩).hash = q → j = i := by
    intro j hj hjq
    have hlenm : (ps.map CachedPattern.hash).length = ps.length := by simp
    have hj2 : j < (ps.map CachedPattern.hash).length := by rw [hlenm]; exact hj
    have hi2 : i < (ps.map CachedPattern.hash).length := by rw [hlenm]; exact hi
    have hget : (ps.map CachedPattern.hash).get ⟨j, hj2⟩ =
        (ps.map CachedPattern.hash).get ⟨i, hi2⟩ := by
      simp only [List.get_eq_getElem, List.getElem_map]
      have e1 : ps[j] = ps.get ⟨j, hj⟩ := rfl
      have e2 : ps[i] = ps.get ⟨i, hi⟩ := rfl
      rw [e1, e2, hjq, hq]
    have hfin := hnd.get_inj_iff.mp hget
    exact congrArg Fin.val hfin
  apply List.ext_get (by simp)
  intro j h1 h2
  simp only [List.get_eq_getElem, List.getElem_map, List.getElem_set]
  by_cases hij : i = j
  · subst hij
    have e2 : ps[i] = ps.get ⟨i, hi⟩ := rfl
    rw [if_pos (by rw [e2, hq]), if_pos rfl]
  · rw [if_neg hij, if_neg ?hne]
    case hne =>
      intro hjq
      have hjlen : j < ps.length := by simpa using h2
      exact hij ((hinj j hjlen hjq).symm)

theorem addPattern_update_hash_mem (now : ℚ) (ps : PatternStore) (q : Hash) (o : Outcome)
    (conf : ℚ) (hany : ps.any (fun p => p.hash = q) = true) :
    ∀ p ∈ addPattern now ps q o conf, ∃ p0 ∈ ps, p.hash = p0.hash := by
  unfold addPattern
  rw [if_pos hany]
  intro p hp
  obtain ⟨e, he, hfe⟩ := List.mem_map.mp hp
  by_cases hq : e.hash = q
  · rw [if_pos hq] at hfe
    exact ⟨e, he, by rw [← hfe]⟩
  · rw [if_neg hq] at hfe
    exact ⟨e, he, by rw [← hfe]⟩

/-- C2: for every cache state and query fingerprint, `find_match` returns
the data of a stored entry whose Hamming distance to the query is smallest
and strictly below `hamming_threshold`, and returns `none` exactly when no
entry is strictly below it; in particular with one entry
`{hash=hashA, outcome=water, confidence=0.9}` and `hamming_threshold=10`, a
query at distance 8 returns `(water, 0.9)` and a query at distance 12
returns `none`. -/
theorem find_match_smallest_below_threshold :
    (∀ (threshold : Nat) (now : ℚ) (ps : PatternStore) (q : Hash) (o : Outcome) (c : ℚ),
       (findMatch threshold now ps q).2 = some (o, c) →
       ∃ p ∈ ps, p.outcome = o ∧ p.confidence = c ∧
         hammingDist q p.hash < threshold ∧
         ∀ p2 ∈ ps, hammingDist q p.hash ≤ hammingDist q p2.hash) ∧
    (∀ (threshold : Nat) (now : ℚ) (ps : PatternStore) (q : Hash),
       (findMatch threshold now ps q).2 = none ↔
         ∀ p ∈ ps, threshold ≤ hammingDist q p.hash) ∧
    (findMatch 10 0 cacheW hashB).2 = some (Outcome.water, 9/10) ∧
    (findMatch 10 0 cacheW hashC).2 = none := by
  refine ⟨?_, ?_, ?_, ?_⟩
  · intro threshold now ps q o c h
    obtain ⟨i, hi, hb, ho, hc, -⟩ := findMatch_hit threshold now ps q o c h
    obtain ⟨hi2, hlt, hmin⟩ := findBestIdx_some threshold q ps i hb
    exact ⟨ps.get ⟨i, hi⟩, List.get_mem ps i hi, ho, hc, hlt, hmin⟩
  · intro threshold now ps q
    exact findMatch_none_iff threshold now ps q
  · rfl
  · rfl

/-- Witness for C2: the hit branch of the theorem instantiated at the
distance-8 scenario, with the hypothesis discharged by computation. -/
theorem find_match_smallest_below_threshold_witness :
    ∃ p ∈ cacheW, p.outcome = Outcome.water ∧ p.confidence = 9/10 ∧
      hammingDist hashB p.hash < 10 ∧
      ∀ p2 ∈ cacheW, hammingDist hashB p.hash ≤ hammingDist hashB p2.hash :=
  find_match_smallest_below_threshold.1 10 0 cacheW hashB Outcome.water (9/10) rfl

/-- C4: whenever `find_match` reports a hit, the updated store is the old
store with exactly the single best-matching entry replaced: its `hit_count`
is incremented by one and its `last_used` set to the current time (which is
later than every previously stored `last_used`), its other fields are the
reported outcome/confidence, and every other position of the store is
unchanged. -/
theorem find_match_hit_mutation (threshold : Nat) (now : ℚ) (ps : PatternStore)
    (q : Hash) (o : Outcome) (c : ℚ)
    (hhit : (findMatch threshold now ps q).2 = some (o, c))
    (hpast : ∀ p ∈ ps, ∀ t : ℚ, p.last_used = some t → t < now) :
    ∃ i, ∃ hi : i < ps.length,
      (findMatch threshold now ps q).1 =
        ps.set i { ps.get ⟨i, hi⟩ with
                    hit_count := (ps.get ⟨i, hi⟩).hit_count + 1,
                    last_used := some now } ∧
      (ps.get ⟨i, hi⟩).outcome = o ∧ (ps.get ⟨i, hi⟩).confidence = c ∧
      (∀ t : ℚ, (ps.get ⟨i, hi⟩).last_used = some t → t < now) ∧
      (∀ j, ¬(j = i) → ((findMatch threshold now ps q).1)[j]? = ps[j]?) := by
  obtain ⟨i, hi, hb, ho, hc, hset⟩ := findMatch_hit threshold now ps q o c hhit
  refine ⟨i, hi, hset, ho, hc, hpast _ (List.get_mem ps i hi), ?_⟩
  intro j hj
  rw [hset]
  exact List.getElem?_set_ne (fun h => hj h.symm)

/-- Witness for C4: a hit at distance 8 on the one-entry cache at time 1. -/
theorem find_match_hit_mutation_witness :
    ∃ i, ∃ hi : i < cacheW.length,
      (findMatch 10 1 cacheW hashB).1 =
        cacheW.set i { cacheW.get ⟨i, hi⟩ with
                        hit_count := (cacheW.get ⟨i, hi⟩).hit_count + 1,
                        last_used := some 1 } ∧
      (cacheW.get ⟨i, hi⟩).outcome = Outcome.water ∧
      (cacheW.get ⟨i, hi⟩).confidence = 9/10 ∧
      (∀ t : ℚ, (cacheW.get ⟨i, hi⟩).last_used = some t → t < 1) ∧
      (∀ j, ¬(j = i) → ((findMatch 10 1 cacheW hashB).1)[j]? = cacheW[j]?) :=
  find_match_hit_mutation 10 1 cacheW hashB Outcome.water (9/10) rfl
    (by
      intro p hp t ht
      simp only [cacheW, List.mem_singleton] at hp
      rw [hp] at ht
      simp at ht)

/-- C5: starting from any store satisfying the dict invariant (distinct hash
keys), calling `add_pattern` twice with the same fingerprint, outcome and
confidence leaves the store of the first call unchanged (so in particular
the entry's `hit_count` is unchanged by the second call), and exactly one
entry carries that fingerprint. -/
theorem add_pattern_idempotent_pair (now now2 : ℚ) (ps : PatternStore) (q : Hash)
    (o : Outcome) (conf : ℚ) (hnd : (ps.map CachedPattern.hash).Nodup) :
    addPattern now2 (addPattern now ps q o conf) q o conf =
      addPattern now ps q o conf ∧
    (addPattern now2 (addPattern now ps q o conf) q o conf).countP
      (fun p => decide (p.hash = q)) = 1 := by
  refine ⟨addPattern_idem now now2 ps q o conf, ?_⟩
  rw [addPattern_idem now now2 ps q o conf]
  exact addPattern_countP now ps q o conf hnd

/-- Witness for C5: two inserts of the same `(hashA, bunker, 1.0)` pattern
into the empty store. -/
theorem add_pattern_idempotent_pair_witness :
    addPattern 2 (addPattern 1 [] hashA Outcome.bunker 1) hashA Outcome.bunker 1 =
      addPattern 1 [] hashA Outcome.bunker 1 ∧
    (addPattern 2 (addPattern 1 [] hashA Outcome.bunker 1) hashA
      Outcome.bunker 1).countP (fun p => decide (p.hash = hashA)) = 1 :=
  add_pattern_idempotent_pair 1 2 [] hashA Outcome.bunker 1 (by simp)

/-- Witness for C6: round-trip of the one-entry cache. -/
theorem persist_load_round_trip_witness :
    load [] (some (.wellFormed (persistRecords cacheW))) = .ok cacheW :=
  persist_load_round_trip cacheW (by simp [cacheW])

/-- C10: constructing the service with a missing cache file succeeds with an
empty pattern set and raises nothing; an existing file that fails to parse
(malformed JSON, or a record whose outcome string is not a valid `Outcome`)
raises `CacheError` at load time. -/
theorem missing_cache_file_fresh_start :
    initPatterns none = .ok [] ∧
    initPatterns (some .malformed) = .error ⟨"Failed to load pattern cache"⟩ ∧
    initPatterns (some (.wellFormed [⟨hashA, "lava", 1, 0, none⟩])) =
      .error ⟨"Failed to load pattern cache"⟩ := by
  exact ⟨rfl, rfl, rfl⟩

/-- C3: when the exact fingerprint of the frame already has a cached entry,
`add_pattern` with a corrected outcome and confidence 1.0 overwrites that
entry in place (same position in the store), and a subsequent `find_match`
on the same frame returns the corrected `(outcome, 1.0)` — never the old
pair, since the result is exactly the overwritten data. Hypotheses are the
dict invariant (distinct keys), the fixed fingerprint width, and a positive
threshold. -/
theorem correction_overwrite_find_match (threshold : Nat) (now now2 : ℚ)
    (ps : PatternStore) (q : Hash) (o2 : Outcome)
    (hthr : 0 < threshold)
    (hnd : (ps.map CachedPattern.hash).Nodup)
    (hlen : ∀ p ∈ ps, p.hash.length = q.length)
    (hmem : ps.any (fun p => p.hash = q) = true) :
    (∃ i, ∃ hi : i < ps.length, (ps.get ⟨i, hi⟩).hash = q ∧
       addPattern now ps q o2 1 =
         ps.set i { ps.get ⟨i, hi⟩ with outcome := o2, confidence := 1 }) ∧
    (findMatch threshold now2 (addPattern now ps q o2 1) q).2 = some (o2, 1) := by
  constructor
  · simp only [List.any_eq_true, decide_eq_true_eq] at hmem
    obtain ⟨e, he, heq⟩ := hmem
    obtain ⟨⟨i, hi⟩, hget⟩ := List.mem_iff_get.mp he
    refine ⟨i, hi, by rw [hget]; exact heq, ?_⟩
    unfold addPattern
    rw [if_pos (by simp only [List.any_eq_true, decide_eq_true_eq]; exact ⟨e, he, heq⟩)]
    exact map_update_eq_set ps q o2 1 hnd i hi (by rw [hget]; exact heq)
  · have hmem1 : (addPattern now ps q o2 1).any (fun p => p.hash = q) = true :=
      addPattern_mem now ps q o2 1
    have hkey1 := addPattern_at_key now ps q o2 1
    have hlen1 : ∀ p ∈ addPattern now ps q o2 1, p.hash.length = q.length := by
      intro p hp
      obtain ⟨p0, hp0, hh⟩ := addPattern_update_hash_mem now ps q o2 1 hmem p hp
      rw [hh]
      exact hlen p0 hp0
    simp only [List.any_eq_true, decide_eq_true_eq] at hmem1
    obtain ⟨e1, he1, he1q⟩ := hmem1
    cases hb : findBestIdx threshold q (addPattern now ps q o2 1) with
    | none =>
      exfalso
      have hall := (findBestIdx_none_iff threshold q (addPattern now ps q o2 1)).mp hb e1 he1
      rw [he1q, hammingDist_self] at hall
      omega
    | some j =>
      obtain ⟨hj, hjlt, hjmin⟩ := findBestIdx_some threshold q (addPattern now ps q o2 1) j hb
      have hzero : hammingDist q ((addPattern now ps q o2 1).get ⟨j, hj⟩).hash = 0 := by
        have hle := hjmin e1 he1
        rw [he1q, hammingDist_self] at hle
        omega
      have hhq : ((addPattern now ps q o2 1).get ⟨j, hj⟩).hash = q := by
        have hl : q.length = ((addPattern now ps q o2 1).get ⟨j, hj⟩).hash.length :=
          (hlen1 _ (List.get_mem _ j hj)).symm
        exact ((hammingDist_eq_zero_iff q ((addPattern now ps q o2 1).get ⟨j, hj⟩).hash
          hl).mp hzero).symm
      obtain ⟨ho, hc⟩ := hkey1 _ (List.get_mem _ j hj) hhq
      rw [findMatch_eq_of_idx threshold now2 (addPattern now ps q o2 1) q j hb hj]
      simp only [Option.some.injEq, Prod.mk.injEq]
      exact ⟨ho, hc⟩

/-- Witness for C3: the `water→bunker` correction on the one-entry cache. -/
theorem correction_overwrite_find_match_witness :
    (∃ i, ∃ hi : i < cacheW.length, (cacheW.get ⟨i, hi⟩).hash = hashA ∧
       addPattern 1 cacheW hashA Outcome.bunker 1 =
         cacheW.set i { cacheW.get ⟨i, hi⟩ with outcome := Outcome.bunker, confidence := 1 }) ∧
    (findMatch 10 2 (addPattern 1 cacheW hashA Outcome.bunker 1) hashA).2 =
      some (Outcome.bunker, 1) :=
  correction_overwrite_find_match 10 1 2 cacheW hashA Outcome.bunker
    (by omega) (by simp [cacheW])
    (by intro p hp; simp only [cacheW, List.mem_singleton] at hp; rw [hp])
    rfl

/-- C1 counterexample: with an empty cache, no achievement overlay and a
failing classifier call, `_process_shot` emits NO downstream shot
notification at all — the raised `AIServiceError` is swallowed by the
enclosing `except`, so the shot is dropped rather than reported as
`(unknown, 0)` as the claim requires. -/
theorem classifier_failure_emits_no_notification_cex :
    (processShot 10 (7/10) 0 [] hashA none (.err "Anthropic API error")).2 = none ∧
    (processShot 10 (7/10) 0 [] hashA none (.err "Anthropic API error")).1 = [] :=
  ⟨rfl, rfl⟩

/-- C1 amended: when the shot boundary's frame misses the cache and the
external classifier raises, the per-shot handler catches the error: the
pipeline continues, the cache is unchanged, and no downstream shot
notification is emitted for that boundary (the shot is dropped, not
degraded to `(unknown, 0)`). -/
theorem classifier_failure_drops_shot (threshold : Nat) (minConf now : ℚ)
    (ps : PatternStore) (q : Hash) (msg : String)
    (hmiss : ∀ p ∈ ps, threshold ≤ hammingDist q p.hash) :
    processShot threshold minConf now ps q none (.err msg) = (ps, none) := by
  unfold processShot
  rw [findMatch_of_none threshold now ps q hmiss]

/-- Witness for C1 (amended): empty cache, failing classifier. -/
theorem classifier_failure_drops_shot_witness :
    processShot 10 (7/10) 0 [] hashA none (.err "timeout") = ([], none) :=
  classifier_failure_drops_shot 10 (7/10) 0 [] hashA "timeout"
    (by intro p hp; simp at hp)

/-- C7: starting from the reset detector, a nonempty episode of qualifying
samples (above threshold and primarily vertical) spaced less than
`ball_stop_duration` apart, followed by quiet samples of which the first to
reach a gap of at least `ball_stop_duration` since the last motion is `w`,
yields `false` on every qualifying sample (never fires during motion),
`false` on the quiet samples before the gap completes, exactly one `true` on
`w`, and `false` on every later quiet sample (not re-fired until a new
motion episode). -/
theorem segmenter_fires_exactly_once (threshold duration : ℚ)
    (qs pre post : List MotionSample) (w : MotionSample)
    (hD : 0 < duration) (hne : qs ≠ [])
    (hqual : ∀ q ∈ qs, threshold < q.ratio ∧ q.vertical = true)
    (_hspace : List.Chain' (fun a b => a.t ≤ b.t ∧ b.t - a.t < duration) qs)
    (hquiet : ∀ u ∈ pre ++ w :: post, ¬(threshold < u.ratio ∧ u.vertical = true))
    (hpre : ∀ u ∈ pre, u.t - (qs.getLast hne).t < duration)
    (hw : duration ≤ w.t - (qs.getLast hne).t) :
    (detectorRun threshold duration initDetector (qs ++ (pre ++ w :: post))).2 =
      List.replicate (qs.length + pre.length) false ++
        true :: List.replicate post.length false := by
  have hquiet_pre : ∀ u ∈ pre, ¬(threshold < u.ratio ∧ u.vertical = true) :=
    fun u hu => hquiet u (List.mem_append_left _ hu)
  have hquiet_w : ¬(threshold < w.ratio ∧ w.vertical = true) :=
    hquiet w (List.mem_append_right _ (List.mem_cons_self w post))
  have hquiet_post : ∀ u ∈ post, ¬(threshold < u.ratio ∧ u.vertical = true) :=
    fun u hu => hquiet u (List.mem_append_right _ (List.mem_cons_of_mem w hu))
  have h3 : detectorRun threshold duration ⟨true, some (qs.getLast hne).t⟩ (w :: post) =
      (⟨false, none⟩, true :: List.replicate post.length false) := by
    simp only [detectorRun,
      detectorStep_fire threshold duration (qs.getLast hne).t w hquiet_w hw]
    rw [detectorRun_idle threshold duration post hquiet_post]
  have h2 : detectorRun threshold duration ⟨true, some (qs.getLast hne).t⟩
      (pre ++ w :: post) =
      (⟨false, none⟩,
       List.replicate pre.length false ++ true :: List.replicate post.length false) := by
    rw [detectorRun_append,
      detectorRun_quiet_waiting threshold duration (qs.getLast hne).t pre hquiet_pre hpre,
      h3]
  rw [detectorRun_append,
    detectorRun_qualifying threshold duration qs hD hne hqual initDetector, h2]
  dsimp only
  rw [List.replicate_add, List.append_assoc]

/-- Witness for C7: two qualifying samples at times 0 and 1 (duration 2),
one quiet sample inside the window at time 2, the boundary sample at time 3,
and one trailing quiet sample at time 4. -/
theorem segmenter_fires_exactly_once_witness :
    (detectorRun 0 2 initDetector
      ([⟨1, true, 0⟩, ⟨1, true, 1⟩] ++
        ([⟨0, false, 2⟩] ++ (⟨0, false, 3⟩ : MotionSample) :: [⟨0, false, 4⟩]))).2 =
      List.replicate ((2 : Nat) + 1) false ++ true :: List.replicate 1 false :=
  segmenter_fires_exactly_once 0 2 [⟨1, true, 0⟩, ⟨1, true, 1⟩] [⟨0, false, 2⟩]
    [⟨0, false, 4⟩] ⟨0, false, 3⟩
    (by norm_num)
    (by simp)
    (by
      intro q hq
      simp only [List.mem_cons, List.mem_singleton, List.not_mem_nil, or_false] at hq
      rcases hq with rfl | rfl <;> exact ⟨by norm_num, rfl⟩)
    (by
      simp only [List.chain'_cons, List.chain'_singleton, and_true]
      constructor <;> norm_num)
    (by
      intro u hu
      simp only [List.cons_append, List.nil_append, List.mem_cons,
        List.not_mem_nil, or_false] at hu
      rcases hu with rfl | rfl | rfl <;>
        (intro hcon; exact absurd hcon.1 (by norm_num))
      )
    (by
      intro u hu
      simp only [List.mem_singleton] at hu
      subst hu
      show (2 : ℚ) - 1 < 2
      norm_num)
    (by
      show (2 : ℚ) ≤ 3 - 1
      norm_num)

/-- C8 counterexample: with the configured capacity 0, one `add` call leaves
a list of length 1, exceeding the capacity — Python's `lst[-0:]` is the
whole list, so the truncation never trims with `max_examples_per_outcome=0`. -/
theorem add_exemplar_cap_zero_cex :
    (storeLookup (addFewShotExample 0 [] Outcome.water "h1" "r1" 1) "water").length = 1 ∧
    0 < (storeLookup (addFewShotExample 0 [] Outcome.water "h1" "r1" 1) "water").length := by
  refine ⟨rfl, ?_⟩
  rw [show (storeLookup (addFewShotExample 0 [] Outcome.water "h1" "r1" 1)
    "water").length = 1 from rfl]
  omega

/-- C8 amended: for every POSITIVE configured capacity, every sequence of
`add_few_shot_example` calls from a fresh store keeps each outcome's list
within the capacity, and a single call on a within-capacity list appends the
new exemplar, dropping exactly the oldest one (FIFO, survivors in order)
when the append would exceed the capacity. (With capacity 0, the `[-0:]`
slice keeps the whole list and the bound fails.) -/
theorem add_exemplar_fifo_bounded (cap : Nat) (hcap : 1 ≤ cap) :
    (∀ (calls : List AddCall) (k : String),
       (storeLookup (runAddCalls cap calls) k).length ≤ cap) ∧
    (∀ (s : ExampleStore) (o : Outcome) (shash reasoning : String) (conf : ℚ),
       (storeLookup s o.value).length ≤ cap →
       storeLookup (addFewShotExample cap s o shash reasoning conf) o.value =
         if (storeLookup s o.value).length < cap
         then storeLookup s o.value ++ [⟨shash, o.value, reasoning, conf⟩]
         else (storeLookup s o.value).drop 1 ++ [⟨shash, o.value, reasoning, conf⟩]) := by
  constructor
  · intro calls k
    exact runAddCalls_bounded_aux cap hcap calls []
      (fun k' => by simp [storeLookup]) k
  · intro s o shash reasoning conf hlen
    exact addFewShot_fifo cap hcap s o shash reasoning conf hlen

/-- Witness for C8 (amended): three adds at capacity 2 stay within bound. -/
theorem add_exemplar_fifo_bounded_witness :
    (storeLookup (runAddCalls 2
      [⟨Outcome.water, "h1", "r1", 1⟩, ⟨Outcome.water, "h2", "r2", 1⟩,
       ⟨Outcome.water, "h3", "r3", 1⟩]) "water").length ≤ 2 :=
  (add_exemplar_fifo_bounded 2 (by omega)).1
    [⟨Outcome.water, "h1", "r1", 1⟩, ⟨Outcome.water, "h2", "r2", 1⟩,
     ⟨Outcome.water, "h3", "r3", 1⟩] "water"

/-- C9 counterexample: with an outcome given and `limit = 0`, the Python
slice `examples[-0:]` returns the entire list, so a store holding one water
exemplar returns it instead of returning no more than 0 exemplars. -/
theorem get_exemplars_limit_zero_cex :
    getFewShotExamples [("water", [⟨"h1", "water", "r1", 1⟩])] (some Outcome.water) 0 =
      [⟨"h1", "water", "r1", 1⟩] ∧
    0 < (getFewShotExamples [("water", [⟨"h1", "water", "r1", 1⟩])]
        (some Outcome.water) 0).length := by
  refine ⟨rfl, ?_⟩
  rw [show (getFewShotExamples [("water", [⟨"h1", "water", "r1", 1⟩])]
    (some Outcome.water) 0).length = 1 from rfl]
  omega

/-- C9 amended: for `limit ≥ 1`, `get_few_shot_examples` with an outcome
returns exactly the `min limit n` most-recently-added exemplars of that
outcome (a suffix of its list); with the outcome omitted (any limit), it
returns at most `limit` exemplars, a prefix of the concatenation, in store
order, of each outcome's up-to-2 most recent exemplars. (With `limit = 0`
and an outcome given, the `[-0:]` slice returns the whole list instead.) -/
theorem get_exemplars_spec :
    (∀ (s : ExampleStore) (oc : Outcome) (limit : Nat), 1 ≤ limit →
       (getFewShotExamples s (some oc) limit).length =
         min limit (storeLookup s oc.value).length ∧
       getFewShotExamples s (some oc) limit <:+ storeLookup s oc.value) ∧
    (∀ (s : ExampleStore) (limit : Nat),
       (getFewShotExamples s none limit).length ≤ limit ∧
       getFewShotExamples s none limit <+:
         s.flatMap (fun kv => kv.2.drop (kv.2.length - 2))) := by
  constructor
  · intro s oc limit hl
    have he : getFewShotExamples s (some oc) limit =
        (storeLookup s oc.value).drop ((storeLookup s oc.value).length - limit) := by
      show pyTakeLast limit (storeLookup s oc.value) = _
      unfold pyTakeLast
      rw [if_neg (by omega)]
    rw [he]
    constructor
    · rw [List.length_drop]
      omega
    · exact List.drop_suffix _ _
  · intro s limit
    have he2 : getFewShotExamples s none limit =
        (s.flatMap (fun kv => pyTakeLast 2 kv.2)).take limit := rfl
    have hx : s.flatMap (fun kv => pyTakeLast 2 kv.2) =
        s.flatMap (fun kv => kv.2.drop (kv.2.length - 2)) := by
      congr 1
    constructor
    · rw [he2]
      exact List.length_take_le limit _
    · rw [he2, hx]
      exact List.take_prefix _ _

/-- Witness for C9 (amended): one water exemplar, limit 3. -/
theorem get_exemplars_spec_witness :
    (getFewShotExamples [("water", [⟨"h1", "water", "r1", 1⟩])]
        (some Outcome.water) 3).length =
      min 3 (storeLookup [("water", [⟨"h1", "water", "r1", 1⟩])] Outcome.water.value).length ∧
    getFewShotExamples [("water", [⟨"h1", "water", "r1", 1⟩])] (some Outcome.water) 3 <:+
      storeLookup [("water", [⟨"h1", "water", "r1", 1⟩])] Outcome.water.value :=
  get_exemplars_spec.1 [("water", [⟨"h1", "water", "r1", 1⟩])] Outcome.water 3 (by omega)

end MullyMouth
